import Mathlib

/-!
Verification of the abstract expression-resolution engine and the query
builder: a shallow embedding of `src/index.ts`.

JS strings are modelled as lists of characters (`Str`); JS `Map` and
`Record` objects as insertion-ordered association lists with in-place
overwrite (`upsertA`); JS exceptions as `Except JsError`; the unbounded
recursion of `Tree.expand` / `parseTree` as fuel-indexed functions where
`none` means the recursion did not terminate within the given fuel; and
JS numbers as integers (no claim under scrutiny involves fractional or
NaN arithmetic).
-/

namespace Abstr

/-- JS strings, modelled as lists of characters. -/
abbrev Str := List Char

/-- Whitespace test used by JS `trim` and by the regex class in scanning. -/
def isWsC (c : Char) : Bool := c = ' ' || c = '\t' || c = '\n' || c = '\r'

/-- Left trim: drop leading whitespace. -/
def ltrim (s : Str) : Str := s.dropWhile isWsC

/-- Right trim: drop trailing whitespace. -/
def rtrim (s : Str) : Str := (s.reverse.dropWhile isWsC).reverse

/-- JS `String.prototype.trim`. -/
def trim (s : Str) : Str := rtrim (ltrim s)

/-- Is `pat` a prefix of `s`, by characters. -/
def isPre : Str → Str → Bool
  | [], _ => true
  | _ :: _, [] => false
  | a :: as, b :: bs => a = b && isPre as bs

/-- Index of the first occurrence of `pat` in `s`
(JS `indexOf` for the found case; `none` when absent).
JS returns `0` for the empty pattern. -/
def idxOf? : Str → Str → Option Nat
  | s, pat =>
    match s with
    | [] => if pat.isEmpty then some 0 else none
    | c :: t => if isPre pat (c :: t) then some 0 else (idxOf? t pat).map (· + 1)

/-- JS `String.prototype.indexOf`: `-1` when the pattern is absent. -/
def jsIndexOf (s pat : Str) : Int :=
  match idxOf? s pat with
  | some n => (n : Int)
  | none => -1

/-- JS `text.indexOf(pat) > -1`: substring containment. -/
def occursB (s pat : Str) : Bool := (idxOf? s pat).isSome

/-- JS `String.prototype.replace` with a string pattern:
replace the first occurrence only; identity when the pattern is absent. -/
def replaceFirst (s pat rep : Str) : Str :=
  match idxOf? s pat with
  | none => s
  | some i => s.take i ++ rep ++ s.drop (i + pat.length)

/-- JS `String.prototype.split` on a single-character separator:
`"".split(c) = [""]`. -/
def splitOnC (c : Char) : Str → List Str
  | [] => [[]]
  | x :: t =>
    if x = c then [] :: splitOnC c t
    else
      match splitOnC c t with
      | h :: r => (x :: h) :: r
      | [] => [[x]]

/-- JS `String.prototype.charAt`: a one-character string,
empty when out of range. -/
def jsCharAt (s : Str) (n : Nat) : Str := (s.drop n).take 1

/-- Clamp a JS slice index (possibly negative) to `[0, len]`. -/
def sliceIdx (len : Nat) (i : Int) : Nat :=
  if i < 0 then (len - (-i).toNat) else min i.toNat len

/-- JS `String.prototype.slice(start, end)` with possibly negative indices. -/
def jsSlice (s : Str) (a b : Int) : Str :=
  let st := sliceIdx s.length a
  let en := sliceIdx s.length b
  (s.take en).drop st

/-- Decimal digits of a natural number. -/
def natToStr (n : Nat) : Str := Nat.toDigits 10 n

/-- JS `Number.prototype.toString` restricted to integers. -/
def intToStr (i : Int) : Str :=
  if i < 0 then '-' :: natToStr i.natAbs else natToStr i.toNat

/-- Insertion-ordered association update, as JS `Record` assignment and
`Map.set`: overwrite in place when the key exists, append otherwise. -/
def upsertA (k : Str) (v : α) : List (Str × α) → List (Str × α)
  | [] => [(k, v)]
  | (k', v') :: t => if k' = k then (k, v) :: t else (k', v') :: upsertA k v t

/-- Association lookup, as JS `Record` access and `Map.get`. -/
def lookupA (k : Str) : List (Str × α) → Option α
  | [] => none
  | (k', v') :: t => if k' = k then some v' else lookupA k t

deriving instance DecidableEq for Except

/-- A JS exception: either `new Error(msg)` or a runtime `TypeError`
(raised e.g. by destructuring `undefined`). -/
inductive JsError where
  | error (msg : Str)
  | typeError
deriving DecidableEq

/-- The `AbstractMachine<T>` interface of the source. Each operation may
use and update a machine state `S` (the source's machines close over
mutable state) and may throw. A `T`-value that may be JS `undefined` is
an `Option T`; in particular the accumulator threaded through `fold`
starts out as `undefined`. -/
structure Machine (T S : Type) where
  fold : Option T → Str → Nat → List Str → S → Except JsError (Option T × S)
  read : Str → S → Except JsError (Option T × S)
  save : Str → Option T → S → Except JsError (Option T × S)
  swap : Str → Str → Option T → S → Except JsError (Str × S)

/-- A machine whose four operations never throw. -/
structure TotalMachine (T S : Type) where
  fold : Option T → Str → Nat → List Str → S → Option T × S
  read : Str → S → Option T × S
  save : Str → Option T → S → Option T × S
  swap : Str → Str → Option T → S → Str × S

/-- View a never-throwing machine as a `Machine`. -/
def liftTotal (tm : TotalMachine T S) : Machine T S where
  fold a t n r s := .ok (tm.fold a t n r s)
  read k s := .ok (tm.read k s)
  save k v s := .ok (tm.save k v s)
  swap k v a s := .ok (tm.swap k v a s)

/-- One `Tree` node of the source: the mutable current text, the
immutable copy of the input line, the optional publish name, and the
discovered dependencies. Trees alias each other in the source, so a
dependency is recorded as the arena index of the shared node, keyed by
the dependency name, in insertion order. -/
structure Tree where
  currentValue : Str
  input : Str
  ref : Option Str
  dependencies : List (Str × Nat)
deriving DecidableEq

/-- The arena of all `Tree` nodes of one `compile` run; aliased JS
references become indices into it. -/
abbrev Arena := List Tree

/-- Out-of-range default node (never reached in the source's runs). -/
def dfltTree : Tree := ⟨[], [], none, []⟩

/-- Current text of node `i`. -/
def getCV (ar : Arena) (i : Nat) : Str := (ar.getD i dfltTree).currentValue

/-- Input copy of node `i`. -/
def getInput (ar : Arena) (i : Nat) : Str := (ar.getD i dfltTree).input

/-- Publish name of node `i`. -/
def getRef (ar : Arena) (i : Nat) : Option Str := (ar.getD i dfltTree).ref

/-- Dependency record of node `i`. -/
def getDeps (ar : Arena) (i : Nat) : List (Str × Nat) :=
  (ar.getD i dfltTree).dependencies

/-- Source `Tree.update`: overwrite the current text of node `i`. -/
def setCV (ar : Arena) (i : Nat) (cv : Str) : Arena :=
  ar.set i { ar.getD i dfltTree with currentValue := cv }

/-- Source `this.dependencies[a] = depTree` on node `i`. -/
def addDep (ar : Arena) (i : Nat) (a : Str) (j : Nat) : Arena :=
  ar.set i
    { ar.getD i dfltTree with
      dependencies := upsertA a j (ar.getD i dfltTree).dependencies }

/-- Source `isFunctionArgument`: the text has no `:` at all, or
the first occurrence of the keyword is after the first `:`. -/
def isFunctionArgument (text keyword : Str) : Bool :=
  let pos := jsIndexOf text [':']
  pos = -1 || jsIndexOf text keyword > pos

/-- Source `isInBetweenBraces`: the first occurrence of the
keyword lies strictly between the first opening brace and the first
closing brace. -/
def isInBetweenBraces (text keyword : Str) : Bool :=
  let index := jsIndexOf text keyword
  let start := jsIndexOf text ['\x7b']
  let close := jsIndexOf text ['\x7d']
  decide (start < index) && decide (index < close)

/-- The guard of the dependency loop in `parseTree`. -/
def depGuard (text keyword : Str) : Bool :=
  isFunctionArgument text keyword || isInBetweenBraces text keyword

/-- Source `m.read(k) || parseTree(t.dependencies[k], m)`: a truthy read result
short-circuits, otherwise the child tree for `k` is evaluated via the
callback `rec` (the fuelled `parseTree`). -/
def resolveOutput
    (rec : Arena → S → Nat → Option (Except JsError (Option T × Arena × S)))
    (r : Option T) (ar : Arena) (s1 : S) (j : Nat) :
    Option (Except JsError (Option T × Arena × S)) :=
  match r with
  | some v => some (.ok (some v, ar, s1))
  | none => rec ar s1 j

/-- The dependency loop of `parseTree` on node `i`, over the snapshot
`depList` of the node's dependency record. For each name `k` passing the
guard: consult the machine's read-cache, otherwise evaluate the child
tree recursively (via the callback `rec`, the fuelled `parseTree`); ask
`swap` for a substitution string; overwrite the whole text with it when
it is non-empty, otherwise replace the first occurrence of `k` with the
child's current text; then continue with the rest of the names. -/
def parseDepsGo (m : Machine T S)
    (rec : Arena → S → Nat → Option (Except JsError (Option T × Arena × S))) :
    Arena → S → Nat → List (Str × Nat) → Option (Except JsError (Arena × S))
  | ar, s, _, [] => some (.ok (ar, s))
  | ar, s, i, (k, j) :: rest =>
    if depGuard (getCV ar i) k then
      match m.read k s with
      | .error e => some (.error e)
      | .ok (r, s1) =>
        match resolveOutput rec r ar s1 j with
        | none => none
        | some (.error e) => some (.error e)
        | some (.ok (output, ar1, s2)) =>
          match m.swap k (getCV ar1 i) output s2 with
          | .error e => some (.error e)
          | .ok (value0, s3) =>
            let newCv :=
              if value0 = [] then replaceFirst (getCV ar1 i) k (getCV ar1 j)
              else value0
            parseDepsGo m rec (setCV ar1 i newCv) s3 i rest
    else parseDepsGo m rec ar s i rest

/-- JS `Array.prototype.reduceRight` over the token list, threading the
machine state: the input is the token list paired with its positions,
reversed, so the rightmost token is folded first. -/
def foldRevGo (m : Machine T S) (r : List Str) :
    List (Nat × Str) → Option T → S → Except JsError (Option T × S)
  | [], acc, s => .ok (acc, s)
  | (idx, tok) :: rest, acc, s =>
    match m.fold acc tok idx r s with
    | .error e => .error e
    | .ok (acc1, s1) => foldRevGo m r rest acc1 s1

/-- Source `parseTree`, fuel-indexed (the source recursion is
unbounded on cyclic dependency graphs; `none` means the fuel ran out).
Resolve and substitute every dependency, split the rewritten text on
`:`, fold right-to-left starting from the undefined accumulator, and
save the result under the publish name when there is a (truthy) one. -/
def parseTree (m : Machine T S) :
    Nat → Arena → S → Nat → Option (Except JsError (Option T × Arena × S))
  | 0, _, _, _ => none
  | fuel + 1, ar, s, i =>
    match parseDepsGo m (fun a s' j => parseTree m fuel a s' j) ar s i (getDeps ar i) with
    | none => none
    | some (.error e) => some (.error e)
    | some (.ok (ar1, s1)) =>
      let toks := splitOnC ':' (getCV ar1 i)
      match foldRevGo m toks toks.enum.reverse none s1 with
      | .error e => some (.error e)
      | .ok (tVal, s2) =>
        match getRef ar1 i with
        | some rf =>
          if rf = [] then some (.ok (tVal, ar1, s2))
          else
            match m.save rf tVal s2 with
            | .error e => some (.error e)
            | .ok (v, s3) => some (.ok (v, ar1, s3))
        | none => some (.ok (tVal, ar1, s2))

/-- A program line `Source = [string, string, string | undefined]`:
expression text, display key, optional publish name. -/
abbrev SourceL := Str × Str × Option Str

/-- The mutable fields of an `Abstract<T>` instance: the result cache,
the macro table, and the program. -/
structure AbstractSt (T : Type) where
  cache : List (Str × Option T)
  macroTable : List (Str × Str)
  program : List SourceL
deriving DecidableEq

/-- One line of `expandMacro`: for every (keyword, replacement) pair in
table order, if the keyword occurs in the text, replace its first
occurrence. -/
def expandLine (mac : List (Str × Str)) (v : Str) : Str :=
  mac.foldl (fun acc kv => if occursB acc kv.1 then replaceFirst acc kv.1 kv.2 else acc) v

/-- Source `Abstract.expandMacro`: rewrite the first component of every program
line in place. -/
def expandMacroProg (mac : List (Str × Str)) (p : List SourceL) : List SourceL :=
  p.map (fun l => (expandLine mac l.1, l.2))

/-- The fresh `Tree` nodes of `scanDependencyTree`, one per program line. -/
def buildArena (p : List SourceL) : Arena :=
  p.map (fun l => ⟨l.1, l.2.1, l.2.2, []⟩)

/-- Accumulate `mem[ref] = tree` over the program (skipping falsy refs),
starting at index `i0`. -/
def buildMemGo : Nat → List SourceL → List (Str × Nat) → List (Str × Nat)
  | _, [], mem => mem
  | i, l :: rest, mem =>
    buildMemGo (i + 1) rest
      (match l.2.2 with
       | some r => if r = [] then mem else upsertA r i mem
       | none => mem)

/-- The `mem` record of `scanDependencyTree`: publish name to node index. -/
def buildMem (p : List SourceL) : List (Str × Nat) := buildMemGo 0 p []

/-- The loop body of `Tree.expand` over the snapshot of `mem`'s entries:
attach every named tree whose name occurs in the current text of node
`i`, and recursively expand it (via `rec`) when it already has
dependencies of its own. -/
def expandGo (rec : Arena → Nat → Option Arena) :
    Arena → Nat → List (Str × Nat) → Option Arena
  | ar, _, [] => some ar
  | ar, i, (a, j) :: rest =>
    if occursB (getCV ar i) a then
      let ar1 := addDep ar i a j
      if (getDeps ar1 j).length > 0 then
        match rec ar1 j with
        | none => none
        | some ar2 => expandGo rec ar2 i rest
      else expandGo rec ar1 i rest
    else expandGo rec ar i rest

/-- Source `Tree.expand`, fuel-indexed (the source recursion is unbounded on
cyclic reference graphs). -/
def expandT (mem : List (Str × Nat)) :
    Nat → Arena → Nat → Option Arena
  | 0, _, _ => none
  | fuel + 1, ar, i => expandGo (fun a j => expandT mem fuel a j) ar i mem

/-- Source `trees.map(t => t.expand(mem))`: expand every node in program order. -/
def expandAllGo (mem : List (Str × Nat)) (fuel : Nat) :
    Arena → List Nat → Option Arena
  | ar, [] => some ar
  | ar, i :: rest =>
    match expandT mem fuel ar i with
    | none => none
    | some ar1 => expandAllGo mem fuel ar1 rest

/-- The evaluation loop of `compile`: parse every tree in program order
and set the result in the cache under the node's input key. -/
def evalAllGo (m : Machine T S) (fuel : Nat) :
    Arena → S → List (Str × Option T) → List Nat →
    Option (Except JsError (List (Str × Option T) × Arena × S))
  | ar, s, cache, [] => some (.ok (cache, ar, s))
  | ar, s, cache, i :: rest =>
    match parseTree m fuel ar s i with
    | none => none
    | some (.error e) => some (.error e)
    | some (.ok (v, ar1, s1)) =>
      evalAllGo m fuel ar1 s1 (upsertA (getInput ar1 i) v cache) rest

/-- Source `Abstract.compile`, fuel-indexed: clear the cache, expand macros in
place over the program, build the dependency forest, evaluate every
tree, and populate the cache keyed by each tree's input copy. Returns
the updated instance state and machine state; `some (.error e)` when a
machine operation threw, `none` when the recursion did not terminate
within the fuel. -/
def compileF (fuel : Nat) (m : Machine T S) (st : AbstractSt T) (s : S) :
    Option (Except JsError (AbstractSt T × S)) :=
  let p1 := expandMacroProg st.macroTable st.program
  let mem := buildMem p1
  match expandAllGo mem fuel (buildArena p1) (List.range p1.length) with
  | none => none
  | some ar1 =>
    match evalAllGo m fuel ar1 s [] (List.range p1.length) with
    | none => none
    | some (.error e) => some (.error e)
    | some (.ok (cache, _, s')) =>
      some (.ok (⟨cache, st.macroTable, p1⟩, s'))

/-- The three result shapes of `Solution`. -/
inductive Solution where
  | index
  | tuple
  | value
deriving DecidableEq

/-- A `Tuple`: an ordered pair of numbers (value, index). -/
structure Tuple where
  value : Int
  index : Int
deriving DecidableEq

/-- Source `Accumulator = [Tuple[], Solution, number]`: the source's 3-tuple of
the tuple list, the solution kind, and the numeric value. -/
structure Accumulator where
  xs : List Tuple
  sol : Solution
  val : Int
deriving DecidableEq

/-- One entry of the interpreter's error log, the source 5-tuple
`[Error, Accumulator, string, string[], number]`:
(error, accumulator at failure, offending token, full token list, position). -/
structure Misinterpret where
  err : JsError
  acc : Option Accumulator
  token : Str
  input : List Str
  pos : Nat
deriving DecidableEq

/-- The mutable state closed over by `createInterpreter`:
the error log and the read/save cache. -/
structure InterpSt where
  errors : List Misinterpret
  cache : List (Str × Option Accumulator)
deriving DecidableEq

/-- A user resolver: may throw. The accumulator argument may be the
initial `undefined`. -/
abbrev Resolver := Str → Option Accumulator → Nat → List Str → Except JsError Accumulator

/-- The interpreter's `fold`: trim the token, run the resolver, and on a
thrown error append a log record and return the prior accumulator
unchanged. It never throws itself. -/
def interpFold (resolver : Resolver) (acc : Option Accumulator) (token : Str)
    (n : Nat) (input : List Str) (s : InterpSt) :
    Except JsError (Option Accumulator × InterpSt) :=
  match resolver (trim token) acc n input with
  | .ok a => .ok (some a, s)
  | .error e => .ok (acc, { s with errors := s.errors ++ [⟨e, acc, token, input, n⟩] })

/-- The interpreter's `read`: a cache hit that stored `undefined` is
indistinguishable from a miss. -/
def interpRead (ref : Str) (s : InterpSt) :
    Except JsError (Option Accumulator × InterpSt) :=
  .ok ((lookupA ref s.cache).bind id, s)

/-- The interpreter's `save`: store and return the value. -/
def interpSave (ref : Str) (val : Option Accumulator) (s : InterpSt) :
    Except JsError (Option Accumulator × InterpSt) :=
  .ok (val, { s with cache := upsertA ref val s.cache })

/-- The interpreter's `swap`. Destructuring an `undefined` accumulator
throws a `TypeError`, as does indexing past the end of the tuple list in
the `index` case. -/
def interpSwap (ref str : Str) (acc : Option Accumulator) (s : InterpSt) :
    Except JsError (Str × InterpSt) :=
  match acc with
  | none => .error .typeError
  | some ⟨xs, sol, val⟩ =>
    match sol with
    | .value => .ok (replaceFirst str ref (intToStr val), s)
    | .index =>
      if val > -1 then
        match xs.get? val.toNat with
        | some t => .ok (replaceFirst str ref (intToStr t.value), s)
        | none => .error .typeError
      else .ok ([], s)
    | .tuple => .ok ([], s)

/-- Source `createInterpreter`: the machine wrapping a user resolver. -/
def createInterpreter (resolver : Resolver) : Machine Accumulator InterpSt where
  fold := interpFold resolver
  read := interpRead
  save := interpSave
  swap := interpSwap

/-- The fresh interpreter state: empty error log, empty cache. -/
def interpInit : InterpSt := ⟨[], []⟩

/-- A `Query`: the cluster's sign, its exact matched text, and the
compiled predicates of its clauses. Predicates are opaque values of a
type `P` produced by the registered factories. -/
structure Query (P : Type) where
  sign : Str
  text : Str
  test : List P

/-- The state of a `QueryBuilder`: the registered headers and the
`header+operator` registry. -/
structure QB (P : Type) where
  headers : List Str
  support : List (Str × (Str → P))

/-- The empty builder. -/
def qbEmpty : QB P := ⟨[], []⟩

/-- Set-style insert for the header bookkeeping. -/
def insertSet (k : Str) (l : List Str) : List Str :=
  if k ∈ l then l else l ++ [k]

/-- Source `QueryBuilder.register`: merge the clause factories into the
registry under `header+operator` keys and record the header. -/
def qbRegister (q : QB P) (header : Str) (clauses : List (Str × (Str → P))) : QB P :=
  ⟨insertSet header q.headers,
   clauses.foldl (fun sup kv => upsertA (header ++ kv.1) kv.2 sup) q.support⟩

/-- The message of the grammar error: `unexpected "<clause>"` with the
original clause text verbatim. -/
def unexpectedMsg (input : Str) : Str :=
  "unexpected \"".data ++ input ++ ['"']

/-- Source `QueryBuilder.parse`: trim the clause; the head is its first
character, the operator is the first character of the trimmed remainder
after dropping the head; the operand is everything after the first
occurrence of the operator character (after index `0` when the operator
is empty or absent), trimmed; look up `head+operator` and apply the
factory, or throw. -/
def qbParse (support : List (Str × (Str → P))) (input : Str) : Except JsError P :=
  let expr := trim input
  let head := jsCharAt expr 0
  let func := jsCharAt (trim (expr.drop 1)) 0
  let cut :=
    match idxOf? expr func with
    | some i => i + 1
    | none => 0
  let tail := trim (expr.drop cut)
  match lookupA (head ++ func) support with
  | some call => .ok (call tail)
  | none => .error (.error (unexpectedMsg input))

/-- One attempted regex match of `/([~+-]\s*\x7b.+?\x7d)/` at position
`p` of `s`: a sign character, a whitespace run, an opening brace, a
shortest non-empty newline-free stretch, and the closing brace. Returns
the exclusive end position of the match. -/
def matchAt (s : Str) (p : Nat) : Option Nat :=
  match s.drop p with
  | [] => none
  | c :: rest =>
    if c = '~' || c = '+' || c = '-' then
      let w := (rest.takeWhile isWsC).length
      match rest.drop w with
      | '\x7b' :: rest2 =>
        (match rest2 with
         | [] => none
         | _ :: r3 =>
           match idxOf? r3 ['\x7d'] with
           | none => none
           | some j =>
             if (rest2.take (j + 1)).all (· ≠ '\n') then
               some (p + 1 + w + 1 + (j + 1) + 1)
             else none)
      | _ => none
    else none

/-- The leftmost regex match starting at or after `pos`:
(start, exclusive end). -/
def firstMatchFrom (s : Str) (pos : Nat) : Option (Nat × Nat) :=
  (List.range' pos (s.length - pos)).findSome?
    (fun p => (matchAt s p).map (fun e => (p, e)))

/-- The successive matched texts of the global regex, advancing
`lastIndex` to the end of each match. -/
def scanMatchesGo (s : Str) : Nat → Nat → List Str
  | 0, _ => []
  | fuel + 1, pos =>
    match firstMatchFrom s pos with
    | none => []
    | some (b, e) => (s.take e).drop b :: scanMatchesGo s fuel e

/-- Compile the clauses of one cluster, left to right; the first grammar
error propagates. -/
def parseClauses (support : List (Str × (Str → P))) :
    List Str → Except JsError (List P)
  | [] => .ok []
  | c :: rest =>
    match qbParse support c with
    | .error e => .error e
    | .ok p =>
      match parseClauses support rest with
      | .error e => .error e
      | .ok ps => .ok (p :: ps)

/-- Turn the matched texts into `Query` values: per match, the brace
interior (sliced by the first `\x7b` and first `\x7d` of the match) is
split on `,` and each clause compiled through `qbParse`. -/
def goQueries (support : List (Str × (Str → P))) :
    List Str → Except JsError (List (Query P))
  | [] => .ok []
  | e0 :: rest =>
    let bIdx := jsIndexOf e0 ['\x7b']
    let cIdx := jsIndexOf e0 ['\x7d']
    let value := trim e0
    if value.length > 0 then
      match parseClauses support (splitOnC ',' (jsSlice value (bIdx + 1) cIdx)) with
      | .error e => .error e
      | .ok tests =>
        match goQueries support rest with
        | .error e => .error e
        | .ok qs => .ok (⟨value.take 1, value, tests⟩ :: qs)
    else goQueries support rest

/-- Source `QueryBuilder.scan`: prepend the implicit `~` when the input starts
with an opening brace, then yield one `Query` per regex match in
left-to-right order. The lazy generator is modelled as the list of its
yields; a grammar error thrown while building a query aborts the
sequence. -/
def qbScan (q : QB P) (input : Str) : Except JsError (List (Query P)) :=
  let input1 := if jsCharAt input 0 = ['\x7b'] then '~' :: input else input
  goQueries q.support (scanMatchesGo input1 (input1.length + 1) 0)

/-- The clause decomposition as the claim words it: the header
identifier is the leading alphanumeric run begun by the first character;
the operator glyph is the first (non-whitespace) character differing
from that run; the operand is everything after the operator; the lookup
key is header ++ operator. -/
def specParseC7 (support : List (Str × (Str → P))) (input : Str) : Except JsError P :=
  let expr := trim input
  let header := expr.takeWhile (fun c => c.isAlphanum)
  let restAfter := ltrim (expr.drop header.length)
  let op := restAfter.take 1
  let operand := trim (restAfter.drop 1)
  match lookupA (header ++ op) support with
  | some call => .ok (call operand)
  | none => .error (.error (unexpectedMsg input))

/-- The clause decomposition the code actually performs: the header
identifier is exactly the first character of the trimmed clause; the
operator glyph is the first non-whitespace character after it; the
operand is everything after the first occurrence of the operator glyph
in the trimmed clause (after index 0 when the operator is absent),
trimmed; the lookup key is head ++ operator. -/
def specParseC7amended (support : List (Str × (Str → P))) (input : Str) :
    Except JsError P :=
  let expr := trim input
  let head := expr.take 1
  let func := (ltrim (expr.drop 1)).take 1
  let cut :=
    match idxOf? expr func with
    | some i => i + 1
    | none => 0
  let tail := trim (expr.drop cut)
  match lookupA (head ++ func) support with
  | some call => .ok (call tail)
  | none => .error (.error (unexpectedMsg input))

/-- Witness machine for C2/C3: a trivial total machine over `Unit`. -/
def tmUnit : TotalMachine Unit Unit :=
  ⟨fun a _ _ _ s => (a, s), fun _ s => (none, s),
   fun _ v s => (v, s), fun _ _ _ s => ([], s)⟩

/-- A one-line program with a macro whose replacement re-contains the
macro keyword. -/
def prog9 : List SourceL := [("a".data, "a".data, none)]

/-- The macro table `a ↦ aa`. -/
def mac9 : List (Str × Str) := [("a".data, "aa".data)]

/-- A pure resolver: the value is the token's length. -/
def res9 : Resolver := fun tok _ _ _ => .ok ⟨[], .value, (tok.length : Int)⟩

/-- State after the first compile of `prog9` under `mac9`. -/
def st9a : AbstractSt Accumulator :=
  ⟨[("a".data, some ⟨[], .value, 2⟩)], mac9, [("aa".data, "a".data, none)]⟩

/-- State after the second compile. -/
def st9b : AbstractSt Accumulator :=
  ⟨[("a".data, some ⟨[], .value, 3⟩)], mac9, [("aaa".data, "a".data, none)]⟩

/-- The state after compiling `prog9` with an empty macro table. -/
def st9w : AbstractSt Accumulator :=
  ⟨[("a".data, some ⟨[], .value, 1⟩)], [], prog9⟩

/-- Index of the last `:` of the text. -/
def lastColon? (s : Str) : Option Nat :=
  match idxOf? s.reverse [':'] with
  | some r => some (s.length - 1 - r)
  | none => none

/-- The resolution condition as the claim words it: `k` occurs after the
last `:` of the text, or `k` occurs inside a bracketed cluster (between
the first opening brace and the first closing brace after it). -/
def specCondC4 (text k : Str) : Bool :=
  (match lastColon? text with
   | none => false
   | some pc => occursB (text.drop (pc + 1)) k)
  || (match idxOf? text ['\x7b'] with
      | none => false
      | some b =>
        match idxOf? (text.drop (b + 1)) ['\x7d'] with
        | none => false
        | some c => occursB ((text.drop (b + 1)).take c) k)

/-- A machine that counts its `read` calls in its state. -/
def mC4 : Machine Unit Nat :=
  ⟨fun a _ _ _ s => .ok (a, s), fun _ s => .ok (none, s + 1),
   fun _ v s => .ok (v, s), fun _ _ _ s => .ok ([], s)⟩

/-- A node `f: k: x` depending on the named node `k` (the dependency is
exactly what `Tree.expand` would discover, since `k` occurs in the
text). -/
def arC4 : Arena :=
  [⟨"f: k: x".data, "f: k: x".data, none, [("k".data, 1)]⟩,
   ⟨"v".data, "v".data, some "k".data, []⟩]

/-- The resolution condition the code actually implements: the text has
no `:` at all, or the first occurrence of `k` is after the first `:`; or
(for the brace test, with JS `indexOf`'s `-1` convention) `k` occurs,
its first occurrence is after the first `\x7b` (vacuously when there is
none), and before the first `\x7d` (which must exist). -/
def specCondC4amended (text k : Str) : Bool :=
  (match idxOf? text [':'] with
   | none => true
   | some pc =>
     match idxOf? text k with
     | none => false
     | some ik => decide (pc < ik))
  || ((match idxOf? text ['\x7b'] with
       | none => true
       | some ib =>
         match idxOf? text k with
         | none => false
         | some ik => decide (ib < ik)) &&
      (match idxOf? text k, idxOf? text ['\x7d'] with
       | some ik, some ic => decide (ik < ic)
       | _, _ => false))

/-- The always-throwing resolver of the error-isolation scenario. -/
def rthrow : Resolver := fun _ _ _ _ => .error (.error "E".data)

/-- A dependency-free three-line program of single-token lines. -/
def p3 : List SourceL :=
  [("a".data, "a".data, none), ("b".data, "b".data, none),
   ("c".data, "c".data, none)]

/-- A three-line program whose second line references the published name
`n` of the first. -/
def pbad : List SourceL :=
  [("x".data, "x".data, some "n".data),
   ("f: n".data, "f: n".data, none),
   ("y".data, "y".data, none)]

/-- Invariant of the expansion phase relative to the fresh arena `ar0`:
texts, inputs and refs are untouched, and every recorded dependency is a
`mem` entry whose name occurs in the owning node's (original) text. -/
def ExpandInv (ar0 ar : Arena) (mem : List (Str × Nat)) : Prop :=
  ar.length = ar0.length ∧
  (∀ i, getCV ar i = getCV ar0 i) ∧
  (∀ i, getInput ar i = getInput ar0 i) ∧
  (∀ i, getRef ar i = getRef ar0 i) ∧
  (∀ i kj, kj ∈ getDeps ar i → kj ∈ mem ∧ occursB (getCV ar0 i) kj.1 = true)

/-- The dependency graph recorded in the arena is ranked: every
dependency edge strictly decreases `rk`. -/
def DepsRank (ar : Arena) (rk : Nat → Nat) : Prop :=
  ∀ i kj, kj ∈ getDeps ar i → rk kj.2 < rk i

/-- What evaluation preserves of the arena: everything except the
current texts. -/
def EvalPres (ar ar' : Arena) : Prop :=
  ar'.length = ar.length ∧
  ∀ i, getDeps ar' i = getDeps ar i ∧ getInput ar' i = getInput ar i ∧
    getRef ar' i = getRef ar i

/-- A two-line program: line 0 publishes `n`, line 1 references it. -/
def pW : List SourceL :=
  [("x".data, "x".data, some "n".data), ("f: n".data, "f: n".data, none)]

/-- A two-line program with duplicate display keys and no publish names
at all (hence no self-referential names). -/
def pdup : List SourceL :=
  [("a".data, "k".data, none), ("b".data, "k".data, none)]

/-! ## Theorems -/

theorem ltrim_shape (s : Str) :
    ltrim s = [] ∨ ∃ c t, ltrim s = c :: t ∧ isWsC c = false := by
  induction s with
  | nil => exact .inl rfl
  | cons c t ih =>
    by_cases h : isWsC c
    · simpa [ltrim, List.dropWhile_cons, h] using ih
    · exact .inr ⟨c, t, by simp [ltrim, List.dropWhile_cons, h], by simpa using h⟩

theorem rtrim_take1_of_not_ws (c : Char) (t : Str) (h : isWsC c = false) :
    (rtrim (c :: t)).take 1 = [c] := by
  unfold rtrim
  rw [List.reverse_cons, List.dropWhile_append]
  rcases heq : t.reverse.dropWhile isWsC with _ | ⟨d, u⟩
  · simp [List.dropWhile_cons, h]
  · simp

theorem take1_trim_eq (s : Str) : (trim s).take 1 = (ltrim s).take 1 := by
  rcases ltrim_shape s with h | ⟨c, t, h, hc⟩
  · simp [trim, h, rtrim]
  · rw [trim, h, rtrim_take1_of_not_ws c t hc]; simp

/-- C6: `QueryBuilder.scan` prepends the implicit sign `~` when the input
starts with an opening brace, matches signed bracket clusters with the
non-greedy global regex, and yields one `Query` per cluster in
left-to-right textual order: scanning `{x = 1}` with a registered `x=`
clause yields exactly one `Query` with sign `~`, text `~{x = 1}` and one
compiled predicate, and scanning `{a} + {b} - {c}` with handlers
registered yields three queries with signs `~`, `+`, `-` in that order. -/
theorem scan_grammar_C6 (P : Type) (fx fa fb fc : Str → P) :
    qbScan (qbRegister qbEmpty "x".data [("=".data, fx)]) "\x7bx = 1\x7d".data =
      .ok [⟨"~".data, "~\x7bx = 1\x7d".data, [fx "1".data]⟩] ∧
    qbScan (qbRegister (qbRegister (qbRegister qbEmpty "a".data [([], fa)])
        "b".data [([], fb)]) "c".data [([], fc)])
        "\x7ba\x7d + \x7bb\x7d - \x7bc\x7d".data =
      .ok [⟨"~".data, "~\x7ba\x7d".data, [fa []]⟩,
           ⟨"+".data, "+ \x7bb\x7d".data, [fb []]⟩,
           ⟨"-".data, "- \x7bc\x7d".data, [fc []]⟩] :=
  ⟨rfl, rfl⟩

/-- C8: for every clause whose `header+operator` key has no registered
handler, `QueryBuilder.parse` throws an error whose message is exactly
`unexpected "<original clause text>"` with the clause text verbatim, and
the error propagates out of `scan`/`parse`: scanning `{z ? 1}` on a
builder with no `z?` handler yields exactly that error. -/
theorem unknown_clause_C8 (P : Type) :
    qbScan (qbEmpty (P := P)) "\x7bz ? 1\x7d".data =
      .error (.error "unexpected \"z ? 1\"".data) ∧
    ∀ (support : List (Str × (Str → P))) (input : Str),
      lookupA (jsCharAt (trim input) 0 ++ jsCharAt (trim ((trim input).drop 1)) 0)
          support = none →
      qbParse support input = .error (.error (unexpectedMsg input)) := by
  refine ⟨rfl, ?_⟩
  intro support input h
  unfold qbParse
  simp only [h]

/-- Witness for C8: the miss branch at a concrete clause. -/
theorem unknown_clause_C8_w :
    qbParse ([] : List (Str × (Str → Unit))) "q".data =
      .error (.error (unexpectedMsg "q".data)) :=
  (unknown_clause_C8 Unit).2 [] "q".data rfl

/-- Counterexample to C7: for the clause `ab=1` with a handler
registered for header `ab` and operator `=`, the claim's decomposition
finds the `ab=` factory, but the code takes the second character `b` as
the operator glyph, looks up `ab`, misses, and throws. -/
theorem parse_decomposition_C7_cex :
    qbParse (qbRegister (qbEmpty (P := Unit)) "ab".data
        [("=".data, fun _ => ())]).support "ab=1".data =
      .error (.error (unexpectedMsg "ab=1".data)) ∧
    specParseC7 (qbRegister (qbEmpty (P := Unit)) "ab".data
        [("=".data, fun _ => ())]).support "ab=1".data =
      .ok () := by
  exact ⟨rfl, rfl⟩

/-- C7 amended: `QueryBuilder.parse` decomposes every clause with the
first character as header, the second non-whitespace character as the
operator glyph, and everything after the first occurrence of that glyph
(trimmed) as the operand, looking up the registry under head+operator. -/
theorem parse_decomposition_C7 (P : Type)
    (support : List (Str × (Str → P))) (input : Str) :
    qbParse support input = specParseC7amended support input := by
  simp only [qbParse, specParseC7amended, jsCharAt, List.drop_zero, take1_trim_eq]

theorem parseDepsGo_skip (m : Machine T S)
    (rec : Arena → S → Nat → Option (Except JsError (Option T × Arena × S)))
    (ar : Arena) (s : S) (i : Nat) (dl : List (Str × Nat))
    (h : ∀ kj ∈ dl, depGuard (getCV ar i) kj.1 = false) :
    parseDepsGo m rec ar s i dl = some (.ok (ar, s)) := by
  induction dl with
  | nil => rfl
  | cons kj rest ih =>
    obtain ⟨k, j⟩ := kj
    have hg := h (k, j) (by simp)
    unfold parseDepsGo
    simp only at hg
    simp only [hg, Bool.false_eq_true, if_false]
    exact ih fun kj hm => h kj (by simp [hm])

/-- C2: for every tree node needing no dependency substitution whose
text splits on `:` into the segments `f`, `g`, `x`, `parseTree` returns
the right-to-left fold: `x` is folded first from the undefined
accumulator, then `g`, then `f`, with the machine state threaded in that
order. -/
theorem fold_right_to_left_C2 (T S : Type) (m : Machine T S) (fuel : Nat)
    (ar : Arena) (s : S) (i : Nat) (f g x : Str)
    (hdeps : ∀ kj ∈ getDeps ar i, depGuard (getCV ar i) kj.1 = false)
    (hsplit : splitOnC ':' (getCV ar i) = [f, g, x])
    (href : getRef ar i = none) :
    parseTree m (fuel + 1) ar s i = some (
      match m.fold none x 2 [f, g, x] s with
      | .error e => .error e
      | .ok (a1, s1) =>
        match m.fold a1 g 1 [f, g, x] s1 with
        | .error e => .error e
        | .ok (a2, s2) =>
          match m.fold a2 f 0 [f, g, x] s2 with
          | .error e => .error e
          | .ok (a3, s3) => .ok (a3, ar, s3)) := by
  unfold parseTree
  rw [parseDepsGo_skip m _ ar s i _ hdeps]
  simp only [hsplit]
  have henum : (([f, g, x] : List Str).enum.reverse) = [(2, x), (1, g), (0, f)] := rfl
  rw [henum]
  simp only [foldRevGo]
  rcases h1 : m.fold none x 2 [f, g, x] s with e | ⟨a1, s1⟩
  · simp only [h1]
  · simp only [h1]
    rcases h2 : m.fold a1 g 1 [f, g, x] s1 with e | ⟨a2, s2⟩
    · simp only [h2]
    · simp only [h2]
      rcases h3 : m.fold a2 f 0 [f, g, x] s2 with e | ⟨a3, s3⟩
      · simp only [h3]
      · simp only [h3, href]

/-- Witness for C2 at a concrete node `f: g: x`. -/
theorem fold_right_to_left_C2_w :
    parseTree (liftTotal tmUnit) 1
      [⟨"f: g: x".data, "f: g: x".data, none, []⟩] () 0 =
      some (.ok (none, [⟨"f: g: x".data, "f: g: x".data, none, []⟩], ())) := by
  have h := fold_right_to_left_C2 Unit Unit (liftTotal tmUnit) 0
    [⟨"f: g: x".data, "f: g: x".data, none, []⟩] () 0
    "f".data " g".data " x".data (by decide) (by decide) rfl
  exact h.trans rfl

/-- C3: when `parseTree` resolves a dependency `k` (read-cache hit or
recursive evaluation producing `output` with updated state) and the
machine's `swap` returns a non-empty string, the node's entire current
text is replaced with that string; when `swap` returns the empty string,
the first occurrence of `k` in the current text is replaced by the
dependency tree's raw current text; either way the node's text is
updated before the remaining dependency names are processed. -/
theorem dep_substitution_C3 (T S : Type) (m : Machine T S)
    (rec : Arena → S → Nat → Option (Except JsError (Option T × Arena × S)))
    (ar ar1 : Arena) (s s1 s2 s3 : S) (i j : Nat) (k value0 : Str)
    (r output : Option T) (rest : List (Str × Nat))
    (hguard : depGuard (getCV ar i) k = true)
    (hread : m.read k s = .ok (r, s1))
    (hres : resolveOutput rec r ar s1 j = some (.ok (output, ar1, s2)))
    (hswap : m.swap k (getCV ar1 i) output s2 = .ok (value0, s3)) :
    (value0 ≠ [] →
      parseDepsGo m rec ar s i ((k, j) :: rest) =
        parseDepsGo m rec (setCV ar1 i value0) s3 i rest) ∧
    (value0 = [] →
      parseDepsGo m rec ar s i ((k, j) :: rest) =
        parseDepsGo m rec
          (setCV ar1 i (replaceFirst (getCV ar1 i) k (getCV ar1 j))) s3 i rest) := by
  constructor <;> intro hv
  · conv_lhs => unfold parseDepsGo
    simp [hguard, hread, hres, hswap, hv]
  · subst hv
    conv_lhs => unfold parseDepsGo
    simp [hguard, hread, hres, hswap]

/-- Witness for C3 at a concrete two-node arena, exercising both the
non-empty (whole-text) and the empty (first-occurrence) branches. -/
theorem dep_substitution_C3_w :
    (parseDepsGo (liftTotal tmUnit) (fun a s _ => some (.ok (none, a, s)))
        [⟨"f: k".data, "f: k".data, none, [("k".data, 1)]⟩,
         ⟨"v".data, "v".data, none, []⟩] () 0 [("k".data, 1)] =
      parseDepsGo (liftTotal tmUnit) (fun a s _ => some (.ok (none, a, s)))
        (setCV [⟨"f: k".data, "f: k".data, none, [("k".data, 1)]⟩,
                ⟨"v".data, "v".data, none, []⟩] 0
          (replaceFirst "f: k".data "k".data "v".data)) () 0 []) := by
  have h := dep_substitution_C3 Unit Unit (liftTotal tmUnit)
    (fun a s _ => some (.ok (none, a, s)))
    [⟨"f: k".data, "f: k".data, none, [("k".data, 1)]⟩,
     ⟨"v".data, "v".data, none, []⟩]
    [⟨"f: k".data, "f: k".data, none, [("k".data, 1)]⟩,
     ⟨"v".data, "v".data, none, []⟩]
    () () () () 0 1 "k".data [] none none [] (by decide) rfl rfl rfl
  exact h.2 rfl

theorem compileF_ok_shape (m : Machine T S) (fuel : Nat) (st : AbstractSt T)
    (s : S) (st' : AbstractSt T) (s' : S)
    (h : compileF fuel m st s = some (.ok (st', s'))) :
    st'.macroTable = st.macroTable ∧
    st'.program = expandMacroProg st.macroTable st.program := by
  simp only [compileF] at h
  split at h
  · exact absurd h (by simp)
  · split at h
    · exact absurd h (by simp)
    · exact absurd h (by simp)
    · simp only [Option.some.injEq, Except.ok.injEq, Prod.mk.injEq] at h
      obtain ⟨hst, -⟩ := h
      rw [← hst]
      exact ⟨rfl, rfl⟩

theorem expandMacroProg_snd (mac : List (Str × Str)) (p : List SourceL) :
    (expandMacroProg mac p).map Prod.snd = p.map Prod.snd := by
  simp [expandMacroProg, List.map_map, Function.comp]

/-- C10: `compile` mutates, besides the cache, the program itself: macro
expansion rewrites each line's expression text in place (and the result
state is what any later `compile` call starts from), while the display
key, the publish name and the macro table are unchanged. -/
theorem compile_frame_C10 (T S : Type) (m : Machine T S) (fuel : Nat)
    (st : AbstractSt T) (s : S) (st' : AbstractSt T) (s' : S)
    (h : compileF fuel m st s = some (.ok (st', s'))) :
    st'.macroTable = st.macroTable ∧
    st'.program = expandMacroProg st.macroTable st.program ∧
    st'.program.map Prod.snd = st.program.map Prod.snd := by
  obtain ⟨h1, h2⟩ := compileF_ok_shape m fuel st s st' s' h
  refine ⟨h1, h2, ?_⟩
  rw [h2]
  exact expandMacroProg_snd st.macroTable st.program

/-- Witness to C10 at a concrete one-line program with a macro. -/
theorem compile_frame_C10_w :
    st9a.macroTable = (⟨[], mac9, prog9⟩ : AbstractSt Accumulator).macroTable ∧
    st9a.program =
      expandMacroProg (⟨[], mac9, prog9⟩ : AbstractSt Accumulator).macroTable
        (⟨[], mac9, prog9⟩ : AbstractSt Accumulator).program ∧
    st9a.program.map Prod.snd =
      (⟨[], mac9, prog9⟩ : AbstractSt Accumulator).program.map Prod.snd :=
  compile_frame_C10 Accumulator InterpSt (createInterpreter res9) 2
    ⟨[], mac9, prog9⟩ interpInit st9a interpInit (by decide)

/-- Counterexample to C9: with the program and the macro table left
untouched between two `compile` calls and a pure resolver, the two
resulting caches differ, because the in-place macro expansion of the
first call feeds the second expansion (`a` becomes `aa`, then `aaa`). -/
theorem compile_idempotent_C9_cex :
    compileF 2 (createInterpreter res9) ⟨[], mac9, prog9⟩ interpInit =
      some (.ok (st9a, interpInit)) ∧
    compileF 2 (createInterpreter res9) ⟨st9a.cache, st9a.macroTable, st9a.program⟩
        interpInit = some (.ok (st9b, interpInit)) ∧
    st9a.cache ≠ st9b.cache :=
  ⟨by decide, by decide, by decide⟩

/-- C9 amended: two successive `compile` calls with the program and
macro table untouched in between and the machine started from the same
state yield identical results — provided macro expansion is already at a
fixed point on the once-expanded program (e.g. an empty macro table), so
that the in-place rewrite of the first call does not change the program
again. -/
theorem compile_idempotent_C9 (T S : Type) (m : Machine T S) (fuel : Nat)
    (mac : List (Str × Str)) (p : List SourceL) (s0 : S)
    (c0 c1 : List (Str × Option T)) (st1 : AbstractSt T) (s1 : S)
    (hfix : expandMacroProg mac (expandMacroProg mac p) = expandMacroProg mac p)
    (h1 : compileF fuel m ⟨c0, mac, p⟩ s0 = some (.ok (st1, s1))) :
    compileF fuel m ⟨c1, mac, st1.program⟩ s0 = some (.ok (st1, s1)) := by
  obtain ⟨-, hprog⟩ := compileF_ok_shape m fuel ⟨c0, mac, p⟩ s0 st1 s1 h1
  simp only at hprog
  simp only [compileF] at h1 ⊢
  rw [hprog, hfix]
  exact h1

/-- Witness to the amended C9: with an empty macro table the second
compile reproduces the first result exactly, whatever stale cache it
starts from. -/
theorem compile_idempotent_C9_w :
    compileF 2 (createInterpreter res9) ⟨[("x".data, none)], [], st9w.program⟩
      interpInit = some (.ok (st9w, interpInit)) :=
  compile_idempotent_C9 Accumulator InterpSt (createInterpreter res9) 2
    [] prog9 interpInit [] [("x".data, none)] st9w interpInit
    (by decide) (by decide)

/-- Counterexample to C4: in the text `f: k: x` the name `k` occurs
before the last `:` and inside no cluster, so by the claim no resolution
should be attempted; but the code compares against the *first* `:`, the
guard holds, and `parseTree` does resolve `k` — visible in the machine
state counting one `read` call and in the rewritten text `f: v: x`. -/
theorem dep_guard_C4_cex :
    specCondC4 "f: k: x".data "k".data = false ∧
    depGuard "f: k: x".data "k".data = true ∧
    parseTree mC4 2 arC4 0 0 =
      some (.ok (none,
        [⟨"f: v: x".data, "f: k: x".data, none, [("k".data, 1)]⟩,
         ⟨"v".data, "v".data, some "k".data, []⟩], 1)) :=
  ⟨by decide, by decide, by decide⟩

/-- C4 amended: for every dependency name `k` of a tree node,
`parseTree` attempts resolution of `k` if and only if the node's current
text has no `:` or the first occurrence of `k` is after the first `:`,
or the first occurrences of `k`, `\x7b` and `\x7d` are ordered as a
bracketed enclosure in the `-1`-for-absent convention; every dependency
is processed before the node's own fold. -/
theorem dep_guard_C4 (text k : Str) :
    depGuard text k = specCondC4amended text k := by
  rcases h1 : idxOf? text [':'] with _ | pc <;>
    rcases h2 : idxOf? text k with _ | ik <;>
      rcases h3 : idxOf? text ['\x7b'] with _ | ib <;>
        rcases h4 : idxOf? text ['\x7d'] with _ | ic <;>
          (simp only [depGuard, isFunctionArgument, isInBetweenBraces,
            specCondC4amended, jsIndexOf, h1, h2, h3, h4]
           rw [Bool.eq_iff_iff]
           simp [Bool.or_eq_true, Bool.and_eq_true, decide_eq_true_eq]) <;>
        omega

theorem resolveOutput_total (T S : Type)
    (rec : Arena → S → Nat → Option (Except JsError (Option T × Arena × S)))
    (hrec : ∀ a s j r, rec a s j = some r → ∃ x, r = .ok x) :
    ∀ (r : Option T) (ar : Arena) (s1 : S) (j : Nat) res,
      resolveOutput rec r ar s1 j = some res → ∃ x, res = .ok x := by
  intro r ar s1 j res h
  cases r with
  | some v =>
    simp only [resolveOutput, Option.some.injEq] at h
    exact ⟨_, h.symm⟩
  | none => exact hrec ar s1 j res h

theorem parseDepsGo_total (T S : Type) (tm : TotalMachine T S)
    (rec : Arena → S → Nat → Option (Except JsError (Option T × Arena × S)))
    (hrec : ∀ a s j r, rec a s j = some r → ∃ x, r = .ok x) :
    ∀ (dl : List (Str × Nat)) (ar : Arena) (s : S) (i : Nat) res,
      parseDepsGo (liftTotal tm) rec ar s i dl = some res → ∃ x, res = .ok x := by
  intro dl
  induction dl with
  | nil =>
    intro ar s i res h
    simp only [parseDepsGo, Option.some.injEq] at h
    exact ⟨_, h.symm⟩
  | cons kj rest ih =>
    obtain ⟨k, j⟩ := kj
    intro ar s i res h
    rw [parseDepsGo] at h
    by_cases hg : depGuard (getCV ar i) k
    · rw [if_pos hg] at h
      simp only [liftTotal] at h
      rcases hro : resolveOutput rec ((tm.read k s).1) ar ((tm.read k s).2) j with
        _ | res2
      · rw [hro] at h; exact absurd h (by simp)
      · obtain ⟨⟨out, ar1, s2⟩, rfl⟩ :=
          resolveOutput_total T S rec hrec _ ar _ j res2 hro
        simp only [hro] at h
        exact ih (setCV ar1 i _) _ i res h
    · rw [if_neg hg] at h
      exact ih ar s i res h

theorem foldRevGo_total (T S : Type) (tm : TotalMachine T S) (r : List Str) :
    ∀ (lst : List (Nat × Str)) (acc : Option T) (s : S),
      ∃ y, foldRevGo (liftTotal tm) r lst acc s = .ok y := by
  intro lst
  induction lst with
  | nil => intro acc s; exact ⟨(acc, s), rfl⟩
  | cons p rest ih =>
    obtain ⟨idx, tok⟩ := p
    intro acc s
    simp only [foldRevGo, liftTotal]
    exact ih _ _

theorem parseTree_total (T S : Type) (tm : TotalMachine T S) :
    ∀ (fuel : Nat) (ar : Arena) (s : S) (i : Nat) res,
      parseTree (liftTotal tm) fuel ar s i = some res → ∃ x, res = .ok x := by
  intro fuel
  induction fuel with
  | zero => intro ar s i res h; exact absurd h (by simp [parseTree])
  | succ fuel ih =>
    intro ar s i res h
    rw [parseTree] at h
    rcases hpd : parseDepsGo (liftTotal tm)
        (fun a s' j => parseTree (liftTotal tm) fuel a s' j) ar s i (getDeps ar i) with
      _ | res1
    · rw [hpd] at h; exact absurd h (by simp)
    · obtain ⟨⟨ar1, s1⟩, rfl⟩ := parseDepsGo_total T S tm _
        (fun a s' j r hr => ih a s' j r hr) _ ar s i res1 hpd
      simp only [hpd] at h
      obtain ⟨⟨tVal, s2⟩, hfold⟩ := foldRevGo_total T S tm
        (splitOnC ':' (getCV ar1 i)) (splitOnC ':' (getCV ar1 i)).enum.reverse none s1
      simp only [hfold] at h
      rcases href : getRef ar1 i with _ | rf
      · simp only [href, Option.some.injEq] at h
        exact ⟨_, h.symm⟩
      · simp only [href] at h
        by_cases hrf : rf = []
        · rw [if_pos hrf] at h
          simp only [Option.some.injEq] at h
          exact ⟨_, h.symm⟩
        · rw [if_neg hrf] at h
          simp only [liftTotal, Option.some.injEq] at h
          exact ⟨_, h.symm⟩

theorem evalAllGo_total (T S : Type) (tm : TotalMachine T S) (fuel : Nat) :
    ∀ (idxs : List Nat) (ar : Arena) (s : S) (cache : List (Str × Option T)) res,
      evalAllGo (liftTotal tm) fuel ar s cache idxs = some res → ∃ x, res = .ok x := by
  intro idxs
  induction idxs with
  | nil =>
    intro ar s cache res h
    simp only [evalAllGo, Option.some.injEq] at h
    exact ⟨_, h.symm⟩
  | cons i rest ih =>
    intro ar s cache res h
    rw [evalAllGo] at h
    rcases hpt : parseTree (liftTotal tm) fuel ar s i with _ | res1
    · rw [hpt] at h; exact absurd h (by simp)
    · obtain ⟨⟨v, ar1, s1⟩, rfl⟩ := parseTree_total T S tm fuel ar s i res1 hpt
      simp only [hpt] at h
      exact ih ar1 s1 _ res h

/-- Counterexample to C5: `compile` does throw for some program and
machine of the repository. On the three-line program `pbad` with the
interpreter over an always-throwing resolver, the saved accumulator for
`n` is undefined, so the interpreter's `swap` destructures `undefined`
and the resulting `TypeError` propagates out of `compile` (which
therefore does not complete with three cache entries). -/
theorem compile_no_throw_C5_cex :
    pbad.length = 3 ∧
    compileF 3 (createInterpreter rthrow) ⟨[], [], pbad⟩ interpInit =
      some (.error .typeError) :=
  ⟨by decide, by decide⟩

/-- C5 amended: `compile` adds no throwing of its own — for every
machine whose four operations never throw it never throws, for any
program whatever; the interpreter's `fold` catches a resolver error and
returns the prior accumulator unchanged while appending the record
(error, prior accumulator, offending token, full token list, position);
and on a dependency-free 3-line program with an always-throwing
resolver, `compile` completes with 3 cache entries and an error log of
exactly 3 such records. -/
theorem compile_no_throw_C5 (T S : Type) (tm : TotalMachine T S) :
    (∀ (fuel : Nat) (st : AbstractSt T) (s : S) res,
        compileF fuel (liftTotal tm) st s = some res → ∃ x, res = .ok x) ∧
    (∀ (res : Resolver) (tok : Str) (acc : Option Accumulator) (n : Nat)
        (input : List Str) (s : InterpSt) (e : JsError),
        res (trim tok) acc n input = .error e →
        interpFold res acc tok n input s =
          .ok (acc, ⟨s.errors ++ [⟨e, acc, tok, input, n⟩], s.cache⟩)) ∧
    compileF 2 (createInterpreter rthrow) ⟨[], [], p3⟩ interpInit =
      some (.ok (⟨[("a".data, none), ("b".data, none), ("c".data, none)], [], p3⟩,
        ⟨[⟨.error "E".data, none, "a".data, ["a".data], 0⟩,
          ⟨.error "E".data, none, "b".data, ["b".data], 0⟩,
          ⟨.error "E".data, none, "c".data, ["c".data], 0⟩], []⟩)) := by
  refine ⟨?_, ?_, by decide⟩
  · intro fuel st s res h
    simp only [compileF] at h
    rcases hex : expandAllGo (buildMem (expandMacroProg st.macroTable st.program)) fuel
        (buildArena (expandMacroProg st.macroTable st.program))
        (List.range (expandMacroProg st.macroTable st.program).length) with _ | ar1
    · rw [hex] at h; exact absurd h (by simp)
    · simp only [hex] at h
      rcases hev : evalAllGo (liftTotal tm) fuel ar1 s []
          (List.range (expandMacroProg st.macroTable st.program).length) with _ | res1
      · rw [hev] at h; exact absurd h (by simp)
      · obtain ⟨⟨cache, ar2, s2⟩, rfl⟩ :=
          evalAllGo_total T S tm fuel _ ar1 s [] res1 hev
        simp only [hev, Option.some.injEq] at h
        exact ⟨_, h.symm⟩
  · intro res tok acc n input s e hres
    simp only [interpFold, hres]

theorem length_setCV (ar : Arena) (i : Nat) (cv : Str) :
    (setCV ar i cv).length = ar.length := by
  simp [setCV]

theorem length_addDep (ar : Arena) (i : Nat) (a : Str) (j : Nat) :
    (addDep ar i a j).length = ar.length := by
  simp [addDep]

theorem getD_set_node (ar : Arena) (i : Nat) (nd : Tree) (i' : Nat) :
    (ar.set i nd).getD i' dfltTree =
      if i' = i ∧ i < ar.length then nd else ar.getD i' dfltTree := by
  by_cases h : i' = i
  · subst h
    by_cases hl : i' < ar.length
    · simp [List.getD_eq_getD_get?, List.get?_set_eq_of_lt _ hl, hl]
    · rw [List.set_eq_of_length_le (by omega)]
      simp [hl]
  · have hne : i ≠ i' := fun hh => h hh.symm
    simp [List.getD_eq_getD_get?, List.getElem?_set_ne hne, h]

theorem getDeps_setCV (ar : Arena) (i : Nat) (cv : Str) (i' : Nat) :
    getDeps (setCV ar i cv) i' = getDeps ar i' := by
  unfold getDeps setCV
  rw [getD_set_node]
  split
  · rename_i h; rw [h.1]
  · rfl

theorem getInput_setCV (ar : Arena) (i : Nat) (cv : Str) (i' : Nat) :
    getInput (setCV ar i cv) i' = getInput ar i' := by
  unfold getInput setCV
  rw [getD_set_node]
  split
  · rename_i h; rw [h.1]
  · rfl

theorem getRef_setCV (ar : Arena) (i : Nat) (cv : Str) (i' : Nat) :
    getRef (setCV ar i cv) i' = getRef ar i' := by
  unfold getRef setCV
  rw [getD_set_node]
  split
  · rename_i h; rw [h.1]
  · rfl

theorem getCV_addDep (ar : Arena) (i : Nat) (a : Str) (j : Nat) (i' : Nat) :
    getCV (addDep ar i a j) i' = getCV ar i' := by
  unfold getCV addDep
  rw [getD_set_node]
  split
  · rename_i h; rw [h.1]
  · rfl

theorem getInput_addDep (ar : Arena) (i : Nat) (a : Str) (j : Nat) (i' : Nat) :
    getInput (addDep ar i a j) i' = getInput ar i' := by
  unfold getInput addDep
  rw [getD_set_node]
  split
  · rename_i h; rw [h.1]
  · rfl

theorem getRef_addDep (ar : Arena) (i : Nat) (a : Str) (j : Nat) (i' : Nat) :
    getRef (addDep ar i a j) i' = getRef ar i' := by
  unfold getRef addDep
  rw [getD_set_node]
  split
  · rename_i h; rw [h.1]
  · rfl

theorem getDeps_addDep (ar : Arena) (i : Nat) (a : Str) (j : Nat) (i' : Nat) :
    getDeps (addDep ar i a j) i' = getDeps ar i' ∨
      (i' = i ∧ getDeps (addDep ar i a j) i' = upsertA a j (getDeps ar i)) := by
  unfold getDeps addDep
  rw [getD_set_node]
  split
  · rename_i h; right; exact ⟨h.1, rfl⟩
  · left; rfl

theorem mem_upsertA (k : Str) (v : α) (l : List (Str × α)) (kv : Str × α)
    (h : kv ∈ upsertA k v l) : kv = (k, v) ∨ kv ∈ l := by
  induction l with
  | nil => simpa [upsertA] using h
  | cons hd tl ih =>
    obtain ⟨k', v'⟩ := hd
    unfold upsertA at h
    by_cases he : k' = k
    · rw [if_pos he] at h
      rcases List.mem_cons.mp h with h1 | h1
      · exact .inl h1
      · exact .inr (List.mem_cons.mpr (.inr h1))
    · rw [if_neg he] at h
      rcases List.mem_cons.mp h with h1 | h1
      · exact .inr (List.mem_cons.mpr (.inl h1))
      · rcases ih h1 with h2 | h2
        · exact .inl h2
        · exact .inr (List.mem_cons.mpr (.inr h2))

theorem expandInv_addDep (ar0 ar : Arena) (mem : List (Str × Nat))
    (i : Nat) (a : Str) (j : Nat) (hInv : ExpandInv ar0 ar mem)
    (hmem : (a, j) ∈ mem) (hocc : occursB (getCV ar0 i) a = true) :
    ExpandInv ar0 (addDep ar i a j) mem := by
  obtain ⟨hlen, hcv, hin, href, hdeps⟩ := hInv
  refine ⟨by rw [length_addDep]; exact hlen,
    fun i' => by rw [getCV_addDep]; exact hcv i',
    fun i' => by rw [getInput_addDep]; exact hin i',
    fun i' => by rw [getRef_addDep]; exact href i', ?_⟩
  intro i' kj hkj
  rcases getDeps_addDep ar i a j i' with he | ⟨hii, he⟩
  · rw [he] at hkj; exact hdeps i' kj hkj
  · subst hii
    rw [he] at hkj
    rcases mem_upsertA a j _ kj hkj with rfl | hkj2
    · exact ⟨hmem, hocc⟩
    · exact hdeps i' kj hkj2

theorem expandGo_adequate (ar0 : Arena) (mem : List (Str × Nat))
    (rk : Nat → Nat) (B : Nat) (rec : Arena → Nat → Option Arena)
    (hmemrank : ∀ kj ∈ mem, ∀ i',
      occursB (getCV ar0 i') kj.1 = true → rk kj.2 < rk i')
    (hrec : ∀ ar j, ExpandInv ar0 ar mem → rk j < B →
      ∃ ar', rec ar j = some ar' ∧ ExpandInv ar0 ar' mem) :
    ∀ (ml : List (Str × Nat)), (∀ kj ∈ ml, kj ∈ mem) →
    ∀ ar i, ExpandInv ar0 ar mem → rk i ≤ B →
      ∃ ar', expandGo rec ar i ml = some ar' ∧ ExpandInv ar0 ar' mem := by
  intro ml
  induction ml with
  | nil => intro _ ar i hInv _; exact ⟨ar, rfl, hInv⟩
  | cons kj rest ih =>
    obtain ⟨a, j⟩ := kj
    intro hsub ar i hInv hrk
    rw [expandGo]
    by_cases hocc : occursB (getCV ar i) a = true
    · have hocc0 : occursB (getCV ar0 i) a = true := by
        rw [← hInv.2.1 i]; exact hocc
      have hInv1 : ExpandInv ar0 (addDep ar i a j) mem :=
        expandInv_addDep ar0 ar mem i a j hInv (hsub (a, j) (by simp)) hocc0
      have hrkj : rk j < rk i := hmemrank (a, j) (hsub _ (by simp)) i hocc0
      simp only [hocc, if_true]
      by_cases hlen : (getDeps (addDep ar i a j) j).length > 0
      · obtain ⟨ar2, hrec2, hInv2⟩ :=
          hrec (addDep ar i a j) j hInv1 (by omega)
        simp only [hlen, if_true, hrec2, reduceIte]
        exact ih (fun kj h => hsub kj (by simp [h])) ar2 i hInv2 hrk
      · simp only [hlen, reduceIte]
        exact ih (fun kj h => hsub kj (by simp [h])) (addDep ar i a j) i hInv1 hrk
    · simp only [Bool.not_eq_true] at hocc
      simp only [hocc, Bool.false_eq_true, if_false]
      exact ih (fun kj h => hsub kj (by simp [h])) ar i hInv hrk

theorem expandT_adequate (ar0 : Arena) (mem : List (Str × Nat)) (rk : Nat → Nat)
    (hmemrank : ∀ kj ∈ mem, ∀ i',
      occursB (getCV ar0 i') kj.1 = true → rk kj.2 < rk i') :
    ∀ (fuel : Nat) (i : Nat) (ar : Arena), ExpandInv ar0 ar mem → rk i < fuel →
      ∃ ar', expandT mem fuel ar i = some ar' ∧ ExpandInv ar0 ar' mem := by
  intro fuel
  induction fuel with
  | zero => intro i ar _ h; omega
  | succ fuel ih =>
    intro i ar hInv hrk
    rw [expandT]
    exact expandGo_adequate ar0 mem rk fuel _ hmemrank
      (fun ar' j hInv' hj => ih j ar' hInv' hj)
      mem (fun kj h => h) ar i hInv (by omega)

theorem expandAllGo_adequate (ar0 : Arena) (mem : List (Str × Nat))
    (rk : Nat → Nat) (fuel : Nat)
    (hmemrank : ∀ kj ∈ mem, ∀ i',
      occursB (getCV ar0 i') kj.1 = true → rk kj.2 < rk i') :
    ∀ (idxs : List Nat), (∀ i ∈ idxs, rk i < fuel) →
    ∀ ar, ExpandInv ar0 ar mem →
      ∃ ar', expandAllGo mem fuel ar idxs = some ar' ∧ ExpandInv ar0 ar' mem := by
  intro idxs
  induction idxs with
  | nil => intro _ ar hInv; exact ⟨ar, rfl, hInv⟩
  | cons i rest ih =>
    intro hfuel ar hInv
    rw [expandAllGo]
    obtain ⟨ar1, h1, hInv1⟩ :=
      expandT_adequate ar0 mem rk hmemrank fuel i ar hInv (hfuel i (by simp))
    rw [h1]
    exact ih (fun i' h => hfuel i' (by simp [h])) ar1 hInv1

theorem evalPres_refl (ar : Arena) : EvalPres ar ar :=
  ⟨rfl, fun _ => ⟨rfl, rfl, rfl⟩⟩

theorem evalPres_trans (a b c : Arena) (h1 : EvalPres a b) (h2 : EvalPres b c) :
    EvalPres a c :=
  ⟨h2.1.trans h1.1, fun i =>
    ⟨(h2.2 i).1.trans (h1.2 i).1, (h2.2 i).2.1.trans (h1.2 i).2.1,
     (h2.2 i).2.2.trans (h1.2 i).2.2⟩⟩

theorem evalPres_setCV (ar : Arena) (i : Nat) (cv : Str) :
    EvalPres ar (setCV ar i cv) :=
  ⟨length_setCV ar i cv, fun i' =>
    ⟨getDeps_setCV ar i cv i', getInput_setCV ar i cv i', getRef_setCV ar i cv i'⟩⟩

theorem depsRank_of_pres (ar ar' : Arena) (rk : Nat → Nat)
    (hp : EvalPres ar ar') (hd : DepsRank ar rk) : DepsRank ar' rk :=
  fun i kj hkj => hd i kj ((hp.2 i).1 ▸ hkj)

theorem parseDepsGo_adequate (T S : Type) (tm : TotalMachine T S)
    (rk : Nat → Nat) (B : Nat)
    (rec : Arena → S → Nat → Option (Except JsError (Option T × Arena × S)))
    (hrec : ∀ ar s j, DepsRank ar rk → rk j < B →
      ∃ v ar' s', rec ar s j = some (.ok (v, ar', s')) ∧ EvalPres ar ar') :
    ∀ (dl : List (Str × Nat)), ∀ ar s i, DepsRank ar rk →
      (∀ kj ∈ dl, rk kj.2 < rk i) → rk i ≤ B →
      ∃ ar' s', parseDepsGo (liftTotal tm) rec ar s i dl = some (.ok (ar', s')) ∧
        EvalPres ar ar' := by
  intro dl
  induction dl with
  | nil => intro ar s i _ _ _; exact ⟨ar, s, rfl, evalPres_refl ar⟩
  | cons kj rest ih =>
    obtain ⟨k, j⟩ := kj
    intro ar s i hd hdl hrk
    rw [parseDepsGo]
    by_cases hg : depGuard (getCV ar i) k = true
    · simp only [hg, if_true, liftTotal]
      rcases hr : (tm.read k s).1 with _ | v
      · -- read miss: recursive evaluation
        obtain ⟨v, ar1, s2, hrec1, hpres1⟩ :=
          hrec ar (tm.read k s).2 j hd
            (by have h := hdl (k, j) (by simp); dsimp only at h; omega)
        simp only [resolveOutput, hr, hrec1]
        obtain ⟨ar2, s', h2, hpres2⟩ := ih (setCV ar1 i _) _ i
          (depsRank_of_pres ar _ rk
            (evalPres_trans _ _ _ hpres1 (evalPres_setCV ar1 i _)) hd)
          (fun kj h => hdl kj (by simp [h])) hrk
        refine ⟨ar2, s', h2, ?_⟩
        exact evalPres_trans _ _ _
          (evalPres_trans _ _ _ hpres1 (evalPres_setCV ar1 i _)) hpres2
      · -- read hit
        simp only [resolveOutput, hr]
        obtain ⟨ar2, s', h2, hpres2⟩ := ih (setCV ar i _) _ i
          (depsRank_of_pres ar _ rk (evalPres_setCV ar i _) hd)
          (fun kj h => hdl kj (by simp [h])) hrk
        refine ⟨ar2, s', h2, ?_⟩
        exact evalPres_trans _ _ _ (evalPres_setCV ar i _) hpres2
    · simp only [Bool.not_eq_true] at hg
      simp only [hg, Bool.false_eq_true, if_false]
      exact ih ar s i hd (fun kj h => hdl kj (by simp [h])) hrk

theorem parseTree_adequate (T S : Type) (tm : TotalMachine T S) (rk : Nat → Nat) :
    ∀ (fuel : Nat) (i : Nat) (ar : Arena) (s : S), DepsRank ar rk → rk i < fuel →
      ∃ v ar' s', parseTree (liftTotal tm) fuel ar s i = some (.ok (v, ar', s')) ∧
        EvalPres ar ar' := by
  intro fuel
  induction fuel with
  | zero => intro i ar s _ h; omega
  | succ fuel ih =>
    intro i ar s hd hrk
    rw [parseTree]
    obtain ⟨ar1, s1, h1, hpres1⟩ :=
      parseDepsGo_adequate T S tm rk fuel _
        (fun ar' s' j hd' hj =>
          (ih j ar' s' hd' hj).imp fun v h => h.imp fun ar'' h => h.imp fun s'' h =>
            ⟨h.1, h.2⟩)
        (getDeps ar i) ar s i hd (fun kj h => hd i kj h) (by omega)
    simp only [h1]
    obtain ⟨⟨tVal, s2⟩, hfold⟩ := foldRevGo_total T S tm
      (splitOnC ':' (getCV ar1 i)) (splitOnC ':' (getCV ar1 i)).enum.reverse none s1
    simp only [hfold]
    rcases href : getRef ar1 i with _ | rf
    · exact ⟨tVal, ar1, s2, rfl, hpres1⟩
    · by_cases hrf : rf = []
      · simp only [hrf, if_pos rfl]
        exact ⟨tVal, ar1, s2, rfl, hpres1⟩
      · simp only [hrf, liftTotal, reduceIte]
        exact ⟨_, ar1, _, rfl, hpres1⟩

theorem map_fst_upsertA_notin (k : Str) (v : α) (l : List (Str × α))
    (h : k ∉ l.map Prod.fst) :
    (upsertA k v l).map Prod.fst = l.map Prod.fst ++ [k] := by
  induction l with
  | nil => rfl
  | cons hd tl ih =>
    obtain ⟨k', v'⟩ := hd
    simp only [List.map_cons, List.mem_cons, not_or] at h
    unfold upsertA
    rw [if_neg (fun he => h.1 he.symm)]
    simp only [List.map_cons, List.cons_append, List.cons.injEq, true_and]
    exact ih h.2

theorem evalAllGo_adequate (T S : Type) (tm : TotalMachine T S)
    (fuel : Nat) (rk : Nat → Nat) :
    ∀ (idxs : List Nat), ∀ ar s (cache : List (Str × Option T)),
      DepsRank ar rk → (∀ i ∈ idxs, rk i < fuel) →
      (∀ i ∈ idxs, getInput ar i ∉ cache.map Prod.fst) →
      (idxs.map (getInput ar)).Nodup →
      ∃ cache2 ar' s',
        evalAllGo (liftTotal tm) fuel ar s cache idxs = some (.ok (cache2, ar', s')) ∧
        cache2.map Prod.fst = cache.map Prod.fst ++ idxs.map (getInput ar) := by
  intro idxs
  induction idxs with
  | nil => intro ar s cache _ _ _ _; exact ⟨cache, ar, s, rfl, by simp⟩
  | cons i rest ih =>
    intro ar s cache hd hfuel hkeys hnodup
    rw [evalAllGo]
    obtain ⟨v, ar1, s1, h1, hpres1⟩ :=
      parseTree_adequate T S tm rk fuel i ar s hd (hfuel i (by simp))
    simp only [h1]
    have hinp : ∀ i', getInput ar1 i' = getInput ar i' := fun i' => (hpres1.2 i').2.1
    have hknotin : getInput ar i ∉ cache.map Prod.fst := hkeys i (by simp)
    have hkeys1 : (upsertA (getInput ar i) v cache).map Prod.fst =
        cache.map Prod.fst ++ [getInput ar i] :=
      map_fst_upsertA_notin _ v cache hknotin
    simp only [List.map_cons, List.nodup_cons] at hnodup
    obtain ⟨hni, hnodup'⟩ := hnodup
    have hmapeq : rest.map (getInput ar1) = rest.map (getInput ar) :=
      List.map_congr_left (fun a _ => hinp a)
    obtain ⟨cache2, ar', s', h2, hkeys2⟩ :=
      ih ar1 s1 (upsertA (getInput ar i) v cache)
        (depsRank_of_pres ar ar1 rk hpres1 hd)
        (fun i' h => hfuel i' (by simp [h]))
        (fun i' h => by
          rw [hinp i', hkeys1]
          simp only [List.mem_append, List.mem_singleton, not_or]
          exact ⟨hkeys i' (by simp [h]),
            fun he => hni (he ▸ List.mem_map_of_mem (getInput ar) h)⟩)
        (by rw [hmapeq]; exact hnodup')
    rw [hinp i]
    refine ⟨cache2, ar', s', h2, ?_⟩
    rw [hkeys2, hkeys1, hmapeq]
    simp [List.append_assoc]

theorem nodeAt_buildArena (p : List SourceL) (i : Nat) :
    (buildArena p).getD i dfltTree =
      match p.get? i with
      | some l => ⟨l.1, l.2.1, l.2.2, []⟩
      | none => dfltTree := by
  unfold buildArena
  rw [List.getD_eq_getD_get?, List.get?_map]
  cases p.get? i <;> rfl

theorem getDeps_buildArena (p : List SourceL) (i : Nat) :
    getDeps (buildArena p) i = [] := by
  unfold getDeps
  rw [nodeAt_buildArena]
  cases p.get? i <;> rfl

theorem getCV_buildArena_oob (p : List SourceL) (i : Nat) (h : p.length ≤ i) :
    getCV (buildArena p) i = [] := by
  unfold getCV
  rw [nodeAt_buildArena, List.get?_eq_none.mpr h]
  rfl

theorem expandInv_init (p : List SourceL) (mem : List (Str × Nat)) :
    ExpandInv (buildArena p) (buildArena p) mem :=
  ⟨rfl, fun _ => rfl, fun _ => rfl, fun _ => rfl,
   fun i kj hkj => absurd hkj (by rw [getDeps_buildArena]; simp)⟩

theorem occursB_nil_of_ne (a : Str) (h : a ≠ []) : occursB [] a = false := by
  cases a with
  | nil => exact absurd rfl h
  | cons c t => rfl

theorem buildMemGo_names (p : List SourceL) :
    ∀ (i0 : Nat) (mem : List (Str × Nat)), (∀ kj ∈ mem, kj.1 ≠ []) →
    ∀ kj ∈ buildMemGo i0 p mem, kj.1 ≠ [] := by
  induction p with
  | nil => intro i0 mem h kj hkj; exact h kj hkj
  | cons l rest ih =>
    intro i0 mem h kj hkj
    rw [buildMemGo] at hkj
    apply ih (i0 + 1) _ _ kj hkj
    intro kj' hkj'
    rcases hl : l.2.2 with _ | r
    · rw [hl] at hkj'; exact h kj' hkj'
    · rw [hl] at hkj'
      dsimp only at hkj'
      by_cases hr : r = []
      · rw [if_pos hr] at hkj'; exact h kj' hkj'
      · rw [if_neg hr] at hkj'
        rcases mem_upsertA r i0 mem kj' hkj' with rfl | hm
        · exact hr
        · exact h kj' hm

theorem buildMem_names (p : List SourceL) : ∀ kj ∈ buildMem p, kj.1 ≠ [] :=
  buildMemGo_names p 0 [] (by simp)

theorem range_map_getInput (p : List SourceL) :
    (List.range p.length).map (getInput (buildArena p)) =
      p.map (fun l => l.2.1) := by
  apply List.ext_getElem (by simp)
  intro i h1 h2
  simp only [List.getElem_map, List.getElem_range]
  unfold getInput
  rw [nodeAt_buildArena]
  have hi : i < p.length := by simpa using h2
  rw [List.get?_eq_getElem?, List.getElem?_eq_getElem hi]

theorem expandMacroProg_inputs (mac : List (Str × Str)) (p : List SourceL) :
    (expandMacroProg mac p).map (fun l => l.2.1) = p.map (fun l => l.2.1) := by
  simp [expandMacroProg, List.map_map, Function.comp]

/-- C1 amended: for every program whose named-reference graph admits a
rank function (is acyclic — the mere absence of self-referential names
does not suffice) and whose display keys are pairwise distinct,
`compile` with any non-throwing machine terminates once the fuel exceeds
every rank, and the cache afterwards contains exactly one entry per
program line, keyed in program order by that line's display key (the
tree's original input key, not its publish name). -/
theorem compile_terminates_cache_C1 (T S : Type) (tm : TotalMachine T S) (s : S)
    (cache0 : List (Str × Option T)) (mac : List (Str × Str)) (p : List SourceL)
    (rk : Nat → Nat) (fuel : Nat)
    (Hrk : ∀ kj ∈ buildMem (expandMacroProg mac p), ∀ i < p.length,
      occursB (getCV (buildArena (expandMacroProg mac p)) i) kj.1 = true →
        rk kj.2 < rk i)
    (Hfuel : ∀ i < p.length, rk i < fuel)
    (Hdist : (p.map (fun l => l.2.1)).Nodup) :
    ∃ (st' : AbstractSt T) (s' : S),
      compileF fuel (liftTotal tm) ⟨cache0, mac, p⟩ s = some (.ok (st', s')) ∧
      st'.cache.map Prod.fst = p.map (fun l => l.2.1) := by
  have hlen : (expandMacroProg mac p).length = p.length := by
    simp [expandMacroProg]
  have hmemrank : ∀ kj ∈ buildMem (expandMacroProg mac p), ∀ i',
      occursB (getCV (buildArena (expandMacroProg mac p)) i') kj.1 = true →
        rk kj.2 < rk i' := by
    intro kj hkj i' hocc
    by_cases hi : i' < p.length
    · exact Hrk kj hkj i' hi hocc
    · exfalso
      rw [getCV_buildArena_oob (expandMacroProg mac p) i' (by omega),
        occursB_nil_of_ne kj.1 (buildMem_names (expandMacroProg mac p) kj hkj)] at hocc
      exact absurd hocc (by simp)
  obtain ⟨ar1, hexp, hInv⟩ :=
    expandAllGo_adequate (buildArena (expandMacroProg mac p))
      (buildMem (expandMacroProg mac p)) rk fuel hmemrank
      (List.range (expandMacroProg mac p).length)
      (fun i h => Hfuel i (by rw [← hlen]; exact List.mem_range.mp h))
      (buildArena (expandMacroProg mac p))
      (expandInv_init (expandMacroProg mac p) (buildMem (expandMacroProg mac p)))
  have hd : DepsRank ar1 rk := fun i kj hkj =>
    hmemrank kj (hInv.2.2.2.2 i kj hkj).1 i (hInv.2.2.2.2 i kj hkj).2
  have hinp : ∀ i, getInput ar1 i = getInput (buildArena (expandMacroProg mac p)) i :=
    hInv.2.2.1
  have hmap : (List.range (expandMacroProg mac p).length).map (getInput ar1) =
      p.map (fun l => l.2.1) := by
    rw [List.map_congr_left (fun a _ => hinp a), range_map_getInput,
      expandMacroProg_inputs]
  obtain ⟨cache2, ar2, s2, hev, hkeys⟩ :=
    evalAllGo_adequate T S tm fuel rk
      (List.range (expandMacroProg mac p).length) ar1 s []
      hd
      (fun i h => Hfuel i (by rw [← hlen]; exact List.mem_range.mp h))
      (fun i _ => by simp)
      (by rw [hmap]; exact Hdist)
  refine ⟨⟨cache2, mac, expandMacroProg mac p⟩, s2, ?_, ?_⟩
  · simp only [compileF, hexp, hev]
  · rw [hkeys]
    simpa using hmap

/-- Witness for the amended C1 on the two-line program `pW`, ranked by
position. -/
theorem compile_terminates_cache_C1_w :
    ∃ (st' : AbstractSt Unit) (s' : Unit),
      compileF 2 (liftTotal tmUnit) ⟨[], [], pW⟩ () = some (.ok (st', s')) ∧
      st'.cache.map Prod.fst = pW.map (fun l => l.2.1) :=
  compile_terminates_cache_C1 Unit Unit tmUnit () [] [] pW (fun i => i) 2
    (by decide) (by decide) (by decide)

/-- Counterexample to C1: on a program with no self-referential names
(no names at all) but duplicate display keys, `compile` terminates with
a single cache entry for its two lines — the second `cache.set`
overwrites the first — so the cache does not contain exactly one entry
per program line. -/
theorem compile_cache_C1_cex :
    (∀ l ∈ pdup, l.2.2 = none) ∧
    compileF 2 (liftTotal tmUnit) ⟨[], [], pdup⟩ () =
      some (.ok (⟨[("k".data, none)], [], pdup⟩, ())) ∧
    pdup.length = 2 :=
  ⟨by decide, by decide, by decide⟩

example : idxOf? ['a', 'b', 'c'] ['b'] = some 1 := by decide

example : idxOf? ['a', 'b', 'c'] ['x'] = none := by decide

example : idxOf? ['a', 'b'] [] = some 0 := by decide

example : replaceFirst ['a', 'a'] ['a'] ['a', 'a'] = ['a', 'a', 'a'] := by decide

example : splitOnC ':' ['a', ':', 'b'] = [['a'], ['b']] := by decide

example : splitOnC ':' [] = [[]] := by decide

example : trim [' ', 'a', ' '] = ['a'] := by decide

example : jsSlice ['a', 'b', 'c', 'd'] 1 3 = ['b', 'c'] := by decide

/-- Witness for the amended C5: the no-throw conclusion at the empty
program, and the fold-catches conclusion at a concrete throwing
resolver. -/
theorem compile_no_throw_C5_w :
    (∃ x, (Except.ok ((⟨[], [], []⟩ : AbstractSt Unit), ()) :
        Except JsError (AbstractSt Unit × Unit)) = .ok x) ∧
    interpFold rthrow none "a".data 0 ["a".data] interpInit =
      .ok (none, ⟨[] ++ [⟨.error "E".data, none, "a".data, ["a".data], 0⟩], []⟩) :=
  ⟨(compile_no_throw_C5 Unit Unit tmUnit).1 1 ⟨[], [], []⟩ () _ rfl,
   (compile_no_throw_C5 Unit Unit tmUnit).2.1 rthrow "a".data none 0 ["a".data]
     interpInit (.error "E".data) rfl⟩

end Abstr
